import Mathlib

/-!
Verification of `python/lancedb/embeddings/utils.py` (lancedb).

This file gives a shallow embedding of the embedding-pipeline utilities:

* `FunctionWrapper.to_batches` (lines 154-166): chunking an input sequence
  with `range(0, len(arr), batch_size)` and slicing.
* `FunctionWrapper.__call__` (lines 98-127): flattening per-batch results,
  optional retry wrapping, and the rate-limiter version fallback.
* `FunctionWrapper.batch_size` (lines 146-148): the builder setter.
* `weak_lru` (lines 169-210): an `lru_cache` over keys whose receiver slot
  is a `weakref.ref(self)`.
* `retry_with_exponential_backoff` (lines 213-259).
* `with_embeddings` (lines 41-83).

Machine-level Python details that matter are embedded explicitly:
`range` semantics (including the `ValueError` on step 0 and emptiness for a
negative step), list slicing as `drop`/`take`, exception flow as `Except`,
and the documented CPython equality of `weakref.ref` objects (two live
references compare like their referents).  Randomness and time are passed
in as explicit streams of rational draws; sleeping is recorded, not
performed.
-/

set_option maxHeartbeats 1000000

/-- Number of elements of Python `range(0, n, b)` for a step `b > 0`,
i.e. `ceil(n / b)` written in natural-number arithmetic. -/
def numBatches (b n : Nat) : Nat := (n + b - 1) / b

/-- Embedding of the chunker inside `FunctionWrapper.to_batches`
(utils.py lines 157-159) for a positive batch size `b`:
`range(0, len(arr), b)` yields the start indices `i * b` for
`i < ceil(len(arr) / b)`, and each batch is the slice
`arr[start : start + b]`, i.e. `(arr.drop (i * b)).take b`.
The progress-bar branch (lines 161-164) only instruments the same
sequence of chunks, so it is not modelled separately. -/
def FunctionWrapper.to_batches (b : Nat) (arr : List α) : List (List α) :=
  (List.range (numBatches b arr.length)).map (fun i => (arr.drop (i * b)).take b)

/-- The message of the `ValueError` CPython raises when a `range` step is 0. -/
def rangeZeroError : String := "range() arg 3 must not be zero"

/-- Embedding of `FunctionWrapper.to_batches` for an arbitrary integer batch
size, following CPython `range(0, len(arr), step)` semantics: step `0`
raises `ValueError` (when the generator is first advanced), a negative step
gives an empty range (since the stop `len(arr)` is `≥ 0`, hence no index is
produced and no batch is yielded), and a positive step chunks as in
`FunctionWrapper.to_batches`. -/
def FunctionWrapper.to_batches_py (b : Int) (arr : List α) : Except String (List (List α)) :=
  if b = 0 then Except.error rangeZeroError
  else if b < 0 then Except.ok []
  else Except.ok (FunctionWrapper.to_batches b.toNat arr)

theorem numBatches_zero (b : Nat) (hb : 1 ≤ b) : numBatches b 0 = 0 := by
  unfold numBatches
  exact Nat.div_eq_of_lt (by omega)

theorem numBatches_pos_eq (b n : Nat) (hb : 1 ≤ b) (hn : 1 ≤ n) :
    numBatches b n = (n - 1) / b + 1 := by
  unfold numBatches
  rw [show n + b - 1 = (n - 1) + b by omega]
  rw [Nat.add_div_right _ (by omega)]

theorem numBatches_sub (b n : Nat) (hb : 1 ≤ b) (hn : 1 ≤ n) :
    numBatches b (n - b) = (n - 1) / b := by
  unfold numBatches
  rcases le_or_lt b n with h | h
  · rw [show n - b + b - 1 = (n - 1) by omega]
  · rw [show n - b = 0 by omega]
    rw [Nat.div_eq_of_lt (by omega)]
    rw [Nat.div_eq_of_lt (by omega)]

/-- Unfolding equation for the chunker: a nonempty input splits into its
first `b` elements followed by the chunks of the rest. -/
theorem to_batches_cons (b : Nat) (hb : 1 ≤ b) (arr : List α) (h : arr ≠ []) :
    FunctionWrapper.to_batches b arr =
      arr.take b :: FunctionWrapper.to_batches b (arr.drop b) := by
  have hn : 1 ≤ arr.length := by
    cases arr with
    | nil => exact absurd rfl h
    | cons x xs => simp
  unfold FunctionWrapper.to_batches
  rw [List.length_drop]
  rw [numBatches_pos_eq b arr.length hb hn, numBatches_sub b arr.length hb hn]
  rw [List.range_succ_eq_map]
  rw [List.map_cons, List.map_map]
  congr 1
  · simp
  · apply List.map_congr_left
    intro i _
    simp only [Function.comp]
    rw [List.drop_drop]
    congr 2
    rw [Nat.succ_mul, Nat.add_comm]

theorem to_batches_nil (b : Nat) (hb : 1 ≤ b) :
    FunctionWrapper.to_batches b ([] : List α) = [] := by
  unfold FunctionWrapper.to_batches
  simp [numBatches_zero b hb]

/-- Concatenating the batches reconstructs the input exactly. -/
theorem to_batches_join (b : Nat) (hb : 1 ≤ b) (arr : List α) :
    (FunctionWrapper.to_batches b arr).flatten = arr := by
  have H : ∀ n (l : List α), l.length = n → (FunctionWrapper.to_batches b l).flatten = l := by
    intro n
    induction n using Nat.strong_induction_on with
    | _ n ih =>
      intro l hlen
      cases l with
      | nil => simp [to_batches_nil b hb]
      | cons x xs =>
        simp only [List.length_cons] at hlen
        rw [to_batches_cons b hb (x :: xs) (by simp)]
        rw [List.flatten_cons]
        rw [ih ((x :: xs).drop b).length (by simp; omega) _ rfl]
        exact List.take_append_drop b (x :: xs)
  exact H arr.length arr rfl

/-- Every batch is nonempty and no longer than the batch size. -/
theorem to_batches_mem_len (b : Nat) (hb : 1 ≤ b) (arr : List α) :
    ∀ l ∈ FunctionWrapper.to_batches b arr, 0 < l.length ∧ l.length ≤ b := by
  have H : ∀ n (ar : List α), ar.length = n →
      ∀ l ∈ FunctionWrapper.to_batches b ar, 0 < l.length ∧ l.length ≤ b := by
    intro n
    induction n using Nat.strong_induction_on with
    | _ n ih =>
      intro ar hlen l hl
      cases ar with
      | nil => rw [to_batches_nil b hb] at hl; cases hl
      | cons x xs =>
        simp only [List.length_cons] at hlen
        rw [to_batches_cons b hb (x :: xs) (by simp)] at hl
        cases hl with
        | head => simp; omega
        | tail _ htl =>
          exact ih ((x :: xs).drop b).length (by simp; omega) _ rfl l htl
  exact H arr.length arr rfl

/-- All batches except possibly the last have length exactly `b`. -/
theorem to_batches_dropLast_len (b : Nat) (hb : 1 ≤ b) (arr : List α) :
    ∀ l ∈ (FunctionWrapper.to_batches b arr).dropLast, l.length = b := by
  have H : ∀ n (ar : List α), ar.length = n →
      ∀ l ∈ (FunctionWrapper.to_batches b ar).dropLast, l.length = b := by
    intro n
    induction n using Nat.strong_induction_on with
    | _ n ih =>
      intro ar hlen l hl
      cases ar with
      | nil => rw [to_batches_nil b hb] at hl; cases hl
      | cons x xs =>
        simp only [List.length_cons] at hlen
        rw [to_batches_cons b hb (x :: xs) (by simp)] at hl
        rcases hrest : FunctionWrapper.to_batches b ((x :: xs).drop b) with _ | ⟨r, rs⟩
        · rw [hrest] at hl
          simp at hl
        · rw [hrest] at hl
          rw [List.dropLast_cons_of_ne_nil (by simp)] at hl
          cases hl with
          | head =>
            have hne : (x :: xs).drop b ≠ [] := by
              intro hcon
              rw [hcon, to_batches_nil b hb] at hrest
              cases hrest
            have hpos : 0 < ((x :: xs).drop b).length := List.length_pos.mpr hne
            simp only [List.length_drop, List.length_cons] at hpos
            simp
            omega
          | tail _ htl =>
            have := ih ((x :: xs).drop b).length (by simp; omega) _ rfl l
            rw [hrest] at this
            exact this htl
  exact H arr.length arr rfl

/-- The `i`-th batch is the slice `arr[i*b : i*b + b]`. -/
theorem to_batches_getD (b : Nat) (arr : List α) (i : Nat)
    (h : i < numBatches b arr.length) :
    (FunctionWrapper.to_batches b arr).getD i [] = (arr.drop (i * b)).take b := by
  unfold FunctionWrapper.to_batches
  rw [List.getD_eq_getElem?_getD]
  rw [List.getElem?_map]
  rw [List.getElem?_range h]
  rfl

/-- Embedding of `FunctionWrapper.__call__` (utils.py lines 98-127) when no
retry and no rate limit are configured: the input is split into batches and
`embed_func` (which applies `self.func` to the plain list view of each
batch) is called once per batch, the per-batch result lists being flattened
in order by the comprehension on line 126. -/
def FunctionWrapper.call (f : List α → List β) (b : Nat) (text : List α) : List β :=
  ((FunctionWrapper.to_batches b text).map f).flatten

/-- Builder state of `FunctionWrapper.__init__` (utils.py lines 91-96):
empty retry and rate-limiter kwargs, `_batch_size = None`, progress off. -/
structure FunctionWrapperCfg where
  hasRateLimit : Bool := false
  hasRetry : Bool := false
  batchSizeVal : Option Int := none
  progressFlag : Bool := false
deriving DecidableEq, Repr

/-- Embedding of the builder setter `FunctionWrapper.batch_size`
(utils.py lines 146-148).  The Python body is exactly
`self._batch_size = batch_size; return self`: it contains no validation
and no raising operation, so in the `Except` embedding of fallible calls
it always returns `Except.ok` with the stored value. -/
def FunctionWrapperCfg.batch_size (w : FunctionWrapperCfg) (b : Int) :
    Except String FunctionWrapperCfg :=
  Except.ok { w with batchSizeVal := some b }

/-- C2: for every finite sequence `S` and batch size `b ≥ 1`,
`FunctionWrapper.to_batches` yields `ceil(len(S)/b)` contiguous,
non-overlapping sub-sequences in original order (the `i`-th batch is the
slice `S[i*b : i*b+b]`), whose concatenation is exactly `S`, every batch
having length `b` except possibly a shorter (but nonempty) final batch. -/
theorem C2_to_batches_partition (b : Nat) (hb : 1 ≤ b) (S : List α) :
    (FunctionWrapper.to_batches b S).length = (S.length + b - 1) / b
    ∧ (FunctionWrapper.to_batches b S).flatten = S
    ∧ (∀ i, i < (FunctionWrapper.to_batches b S).length →
        (FunctionWrapper.to_batches b S).getD i [] = (S.drop (i * b)).take b)
    ∧ (∀ l ∈ (FunctionWrapper.to_batches b S).dropLast, l.length = b)
    ∧ (∀ l ∈ FunctionWrapper.to_batches b S, 0 < l.length ∧ l.length ≤ b) := by
  have hlen : (FunctionWrapper.to_batches b S).length = numBatches b S.length := by
    unfold FunctionWrapper.to_batches
    rw [List.length_map, List.length_range]
  refine ⟨hlen, to_batches_join b hb S, ?_, to_batches_dropLast_len b hb S,
    to_batches_mem_len b hb S⟩
  intro i hi
  exact to_batches_getD b S i (hlen ▸ hi)

theorem C2_to_batches_partition_witness :
    (FunctionWrapper.to_batches 2 ([10, 11, 12] : List Nat)).flatten = [10, 11, 12]
    ∧ (FunctionWrapper.to_batches 2 ([10, 11, 12] : List Nat)).length = 2 :=
  ⟨(C2_to_batches_partition 2 (by decide) [10, 11, 12]).2.1,
   (C2_to_batches_partition 2 (by decide) [10, 11, 12]).1⟩

/-- C1: for every input `S`, every batch size `b ≥ 1` and every embedding
function returning exactly `len(input)` vectors per call, the pipeline
`FunctionWrapper.__call__` returns a flat sequence of length `len(S)`
equal to the in-order concatenation of the per-batch results. -/
theorem C1_call_length_order (b : Nat) (hb : 1 ≤ b) (f : List α → List β)
    (hf : ∀ l : List α, (f l).length = l.length) (S : List α) :
    (FunctionWrapper.call f b S).length = S.length
    ∧ FunctionWrapper.call f b S = ((FunctionWrapper.to_batches b S).map f).flatten := by
  refine ⟨?_, rfl⟩
  unfold FunctionWrapper.call
  rw [List.length_flatten, List.map_map]
  have hmap : (FunctionWrapper.to_batches b S).map (List.length ∘ f)
      = (FunctionWrapper.to_batches b S).map List.length := by
    apply List.map_congr_left
    intro l _
    exact hf l
  rw [hmap, ← List.length_flatten, to_batches_join b hb S]

theorem C1_call_length_order_witness :
    (FunctionWrapper.call (fun l => l.map (fun x => x + 1)) 2 ([5, 6, 7] : List Nat)).length = 3 :=
  (C1_call_length_order 2 (by decide) (fun l => l.map (fun x => x + 1))
    (fun l => by simp) [5, 6, 7]).1

/-- C5 counterexample: the claim says `batch_size(b)` with `b ≤ 0` fails at
build time.  In the code the setter (utils.py lines 146-148) stores the
value without any check and returns normally, and the failure surface is
at iteration time instead: `to_batches` with batch size `0` raises
`ValueError` from `range` when the chunk generator is advanced, while a
negative batch size raises nothing at all and simply yields no batches. -/
theorem C5_batch_size_counterexample :
    FunctionWrapperCfg.batch_size {} 0 = Except.ok { batchSizeVal := some 0 }
    ∧ FunctionWrapper.to_batches_py 0 ([7] : List Nat) = Except.error rangeZeroError
    ∧ FunctionWrapper.to_batches_py (-1) ([7, 8] : List Nat) = Except.ok [] := by
  refine ⟨rfl, rfl, rfl⟩

/-- C5 (amended): configuring the pipeline with `batch_size b` never fails
at build time for any `b` (the setter just records the value); for `b ≤ 0`
the error is deferred to iteration time: with `b = 0` producing batches
raises the `range` `ValueError`, and with `b < 0` iteration silently
produces no batches at all (so no error is ever reported). -/
theorem C5_batch_size_deferred (w : FunctionWrapperCfg) (b : Int) (α : Type) (S : List α) :
    FunctionWrapperCfg.batch_size w b = Except.ok { w with batchSizeVal := some b }
    ∧ (b = 0 → FunctionWrapper.to_batches_py b S = Except.error rangeZeroError)
    ∧ (b < 0 → FunctionWrapper.to_batches_py b S = Except.ok []) := by
  refine ⟨rfl, ?_, ?_⟩
  · intro h
    simp [FunctionWrapper.to_batches_py, h]
  · intro h
    have hne : b ≠ 0 := by omega
    simp [FunctionWrapper.to_batches_py, hne, h]

theorem C5_batch_size_deferred_witness :
    FunctionWrapper.to_batches_py 0 ([3] : List Nat) = Except.error rangeZeroError :=
  (C5_batch_size_deferred {} 0 Nat [3]).2.1 rfl

/-- Modelled from the spec: the external `retry` decorator (the `retry`
PyPI package imported on utils.py line 27, whose source is not part of
this repository) as specified in spec section 4.2 (RetryPolicy): it wraps
a call so that any exception triggers a retry, up to `tries` attempts in
total, and after `tries` failed attempts the last exception propagates
unchanged (not wrapped).  Delays between attempts affect timing only, not
results, and are not modelled.  The wrapped callable is modelled as a
function from the attempt index to a result or an exception; `retryGo f i
fuel` makes the call with attempt index `i` with `fuel` further attempts
allowed, and returns the outcome together with the total number of
invocations made so far (indices `0..i` inclusive). -/
def retryGo (f : Nat → Except E B) : Nat → Nat → Except E B × Nat
  | i, 0 =>
    match f i with
    | Except.ok v => (Except.ok v, i + 1)
    | Except.error e => (Except.error e, i + 1)
  | i, fuel + 1 =>
    match f i with
    | Except.ok v => (Except.ok v, i + 1)
    | Except.error _ => retryGo f (i + 1) fuel

/-- Modelled from the spec: one invocation of a callable wrapped by
`retry(tries=...)` - at most `tries` attempts in total, starting a fresh
attempt counter on each invocation.  Returns the outcome and the number of
times the underlying callable was invoked. -/
def retryWrap (f : Nat → Except E B) (tries : Nat) : Except E B × Nat :=
  retryGo f 0 (tries - 1)

/-- Embedding of the comprehension `[emb for c in batches for emb in
embed_func(c)]` (utils.py line 126) under exceptions: batches are
processed in order, the results are concatenated, and the first exception
aborts the traversal and propagates. -/
def exceptMapBatches (h : List α → Except E (List β)) : List (List α) → Except E (List β)
  | [] => Except.ok []
  | c :: rest =>
    match h c with
    | Except.error e => Except.error e
    | Except.ok out =>
      match exceptMapBatches h rest with
      | Except.error e => Except.error e
      | Except.ok outs => Except.ok (out ++ outs)

/-- Embedding of `FunctionWrapper.__call__` (utils.py lines 98-127) with a
retry configured: `embed_func` is the `retry`-wrapped per-batch call
(lines 100-104), and it is invoked once per batch by line 126, so each
batch invocation runs its own fresh retry loop.  The per-batch behaviour
is a function `F` from the batch to the attempt-indexed outcome of
`self.func` on that batch. -/
def FunctionWrapper.callWithRetry (F : List α → Nat → Except E (List β))
    (tries b : Nat) (text : List α) : Except E (List β) :=
  exceptMapBatches (fun c => (retryWrap (F c) tries).1)
    (FunctionWrapper.to_batches b text)

theorem retryGo_first_ok (f : Nat → Except E B) (k : Nat) (v : B) :
    ∀ fuel i, i ≤ k → k ≤ i + fuel →
      (∀ j, i ≤ j → j < k → ∃ e, f j = Except.error e) →
      f k = Except.ok v →
      retryGo f i fuel = (Except.ok v, k + 1) := by
  intro fuel
  induction fuel with
  | zero =>
    intro i hik hki _ hok
    have : i = k := by omega
    subst this
    simp [retryGo, hok]
  | succ fuel ih =>
    intro i hik hki hfail hok
    rcases eq_or_lt_of_le hik with heq | hlt
    · subst heq
      simp [retryGo, hok]
    · obtain ⟨e, he⟩ := hfail i (le_refl i) hlt
      simp only [retryGo, he]
      exact ih (i + 1) (by omega) (by omega)
        (fun j hj hjk => hfail j (by omega) hjk) hok

theorem retryGo_all_fail (f : Nat → Except E B) (errs : Nat → E)
    (hf : ∀ i, f i = Except.error (errs i)) :
    ∀ fuel i, retryGo f i fuel = (Except.error (errs (i + fuel)), i + fuel + 1) := by
  intro fuel
  induction fuel with
  | zero =>
    intro i
    simp [retryGo, hf i]
  | succ fuel ih =>
    intro i
    simp only [retryGo, hf i]
    rw [ih (i + 1)]
    have h1 : i + 1 + fuel = i + (fuel + 1) := by omega
    rw [h1]

theorem exceptMapBatches_all_ok (h : List α → Except E (List β)) (g : List α → List β) :
    ∀ l : List (List α), (∀ c ∈ l, h c = Except.ok (g c)) →
      exceptMapBatches h l = Except.ok (l.map g).flatten := by
  intro l
  induction l with
  | nil => intro _; rfl
  | cons c rest ih =>
    intro hall
    simp only [exceptMapBatches, hall c (List.mem_cons_self c rest)]
    rw [ih (fun d hd => hall d (List.mem_cons_of_mem c hd))]
    simp

/-- C4: the pipeline RetryPolicy with `tries` total attempts: a per-batch
call that fails exactly `k < tries` times then succeeds returns the
success after exactly `k+1` invocations of the underlying function; an
always-failing per-batch call raises the last exception unchanged (not
wrapped) after exactly `tries` invocations; and in
`FunctionWrapper.__call__` the policy wraps each batch call separately,
so when every batch fails `k` times then succeeds, every batch call
succeeds with its own `k+1` invocations and the pipeline returns the
in-order flattening of the per-batch successes. -/
theorem C4_retry_policy (E B α β : Type) (tries : Nat) (ht : 1 ≤ tries) :
    (∀ (f : Nat → Except E B) (k : Nat) (v : B), k < tries →
        (∀ j, j < k → ∃ e, f j = Except.error e) → f k = Except.ok v →
        retryWrap f tries = (Except.ok v, k + 1))
    ∧ (∀ (f : Nat → Except E B) (errs : Nat → E),
        (∀ i, f i = Except.error (errs i)) →
        retryWrap f tries = (Except.error (errs (tries - 1)), tries))
    ∧ (∀ (F : List α → Nat → Except E (List β)) (g : List α → List β)
        (k b : Nat) (text : List α), k < tries →
        (∀ c j, j < k → ∃ e, F c j = Except.error e) →
        (∀ c, F c k = Except.ok (g c)) →
        FunctionWrapper.callWithRetry F tries b text
            = Except.ok ((FunctionWrapper.to_batches b text).map g).flatten
        ∧ (∀ c ∈ FunctionWrapper.to_batches b text,
            retryWrap (F c) tries = (Except.ok (g c), k + 1))) := by
  refine ⟨?_, ?_, ?_⟩
  · intro f k v hk hfail hok
    exact retryGo_first_ok f k v (tries - 1) 0 (by omega) (by omega)
      (fun j _ hjk => hfail j hjk) hok
  · intro f errs hf
    unfold retryWrap
    rw [retryGo_all_fail f errs hf (tries - 1) 0]
    have h1 : 0 + (tries - 1) = tries - 1 := by omega
    have h2 : tries - 1 + 1 = tries := by omega
    rw [h1, h2]
  · intro F g k b text hk hfail hok
    have hbatch : ∀ c ∈ FunctionWrapper.to_batches b text,
        retryWrap (F c) tries = (Except.ok (g c), k + 1) := by
      intro c _
      exact retryGo_first_ok (F c) k (g c) (tries - 1) 0 (by omega) (by omega)
        (fun j _ hjk => hfail c j hjk) (hok c)
    refine ⟨?_, hbatch⟩
    unfold FunctionWrapper.callWithRetry
    apply exceptMapBatches_all_ok
    intro c hc
    rw [hbatch c hc]

theorem C4_retry_policy_witness :
    retryWrap (fun i => if i = 0 then Except.error "boom" else Except.ok 5) 2
      = (Except.ok 5, 2)
    ∧ retryWrap (fun _ => (Except.error "boom" : Except String Nat)) 2
      = (Except.error "boom", 2) :=
  ⟨(C4_retry_policy String Nat Nat Nat 2 (by decide)).1
      (fun i => if i = 0 then Except.error "boom" else Except.ok 5) 1 5 (by decide)
      (fun j hj => ⟨"boom", by interval_cases j; rfl⟩) rfl,
   (C4_retry_policy String Nat Nat Nat 2 (by decide)).2.1
      (fun _ => (Except.error "boom" : Except String Nat)) (fun _ => "boom")
      (fun _ => rfl)⟩

/-- The terminal error message of `retry_with_exponential_backoff`
(utils.py lines 251-253): the f-string
`f"Maximum number of retries ({max_retries}) exceeded."`. -/
def maxRetriesMessage (maxRetries : Nat) : String :=
  "Maximum number of retries (" ++ Nat.repr maxRetries ++ ") exceeded."

/-- Outcome of one invocation of a function wrapped by
`retry_with_exponential_backoff`: either the underlying value, or the
terminal `Exception(message, cause)` of lines 251-253 carrying the message
and the last underlying exception. -/
inductive BackoffOutcome (E B : Type) where
  | ok : B → BackoffOutcome E B
  | exhausted : String → E → BackoffOutcome E B
deriving DecidableEq, Repr

/-- Embedding of the delay update on utils.py line 255:
`delay *= exponential_base * (1 + jitter * random.random())`, with the
Python bool `jitter` acting as `1` or `0` and `rand` the draw of
`random.random()`. -/
def nextDelay (expBase : ℚ) (jitter : Bool) (rand delay : ℚ) : ℚ :=
  delay * (expBase * (1 + (if jitter then (1 : ℚ) else 0) * rand))

/-- Embedding of the `while True` loop of `retry_with_exponential_backoff`
(utils.py lines 235-257).  `f` gives the outcome of the wrapped call as a
function of the call index, `rands` is the stream of `random.random()`
draws (draw `i` is consumed after the failure of call `i`), `i` is the
current call index (equal to `num_retries`), `delay` the current delay and
`fuel = max_retries - i` the number of retries still allowed.  Returns the
outcome, the total number of calls made, and the list of delays passed to
`time.sleep`, in order.  The loop body: call `f`; on success return the
value; on exception bump the counter and either raise the terminal error
(when `num_retries > max_retries`, i.e. `fuel = 0`) or update the delay,
sleep and loop. -/
def backoffGo (f : Nat → Except E B) (maxRetries : Nat) (expBase : ℚ)
    (jitter : Bool) (rands : Nat → ℚ) : Nat → ℚ → Nat → BackoffOutcome E B × Nat × List ℚ
  | i, _, 0 =>
    match f i with
    | Except.ok v => (BackoffOutcome.ok v, i + 1, [])
    | Except.error e =>
      (BackoffOutcome.exhausted (maxRetriesMessage maxRetries) e, i + 1, [])
  | i, delay, fuel + 1 =>
    match f i with
    | Except.ok v => (BackoffOutcome.ok v, i + 1, [])
    | Except.error _ =>
      let d := nextDelay expBase jitter (rands i) delay
      let r := backoffGo f maxRetries expBase jitter rands (i + 1) d fuel
      (r.1, r.2.1, d :: r.2.2)

/-- Embedding of one invocation of the function returned by
`retry_with_exponential_backoff(func, initial_delay, exponential_base,
jitter, max_retries)` (utils.py lines 213-259): the loop starts at
`num_retries = 0` with `delay = initial_delay`. -/
def retry_with_exponential_backoff (f : Nat → Except E B) (initialDelay expBase : ℚ)
    (jitter : Bool) (maxRetries : Nat) (rands : Nat → ℚ) :
    BackoffOutcome E B × Nat × List ℚ :=
  backoffGo f maxRetries expBase jitter rands 0 initialDelay maxRetries

theorem backoffGo_all_fail (f : Nat → Except E B) (maxRetries : Nat) (expBase : ℚ)
    (jitter : Bool) (rands : Nat → ℚ) (errs : Nat → E)
    (hf : ∀ i, f i = Except.error (errs i)) :
    ∀ fuel i delay,
      (backoffGo f maxRetries expBase jitter rands i delay fuel).1
          = BackoffOutcome.exhausted (maxRetriesMessage maxRetries) (errs (i + fuel))
      ∧ (backoffGo f maxRetries expBase jitter rands i delay fuel).2.1 = i + fuel + 1 := by
  intro fuel
  induction fuel with
  | zero =>
    intro i delay
    simp [backoffGo, hf i]
  | succ fuel ih =>
    intro i delay
    simp only [backoffGo, hf i]
    have h1 : i + 1 + fuel = i + (fuel + 1) := by omega
    refine ⟨?_, ?_⟩
    · rw [(ih (i + 1) (nextDelay expBase jitter (rands i) delay)).1, h1]
    · rw [(ih (i + 1) (nextDelay expBase jitter (rands i) delay)).2, h1]

theorem backoffGo_first_ok (f : Nat → Except E B) (maxRetries : Nat) (expBase : ℚ)
    (jitter : Bool) (rands : Nat → ℚ) (k : Nat) (v : B)
    (hok : f k = Except.ok v)
    (hfail : ∀ j, j < k → ∃ e, f j = Except.error e) :
    ∀ fuel i delay, i ≤ k → k ≤ i + fuel →
      (backoffGo f maxRetries expBase jitter rands i delay fuel).1 = BackoffOutcome.ok v
      ∧ (backoffGo f maxRetries expBase jitter rands i delay fuel).2.1 = k + 1 := by
  intro fuel
  induction fuel with
  | zero =>
    intro i delay hik hki
    have : i = k := by omega
    subst this
    simp [backoffGo, hok]
  | succ fuel ih =>
    intro i delay hik hki
    rcases eq_or_lt_of_le hik with heq | hlt
    · subst heq
      simp [backoffGo, hok]
    · obtain ⟨e, he⟩ := hfail i hlt
      simp only [backoffGo, he]
      exact ih (i + 1) (nextDelay expBase jitter (rands i) delay) (by omega) (by omega)

theorem backoffGo_sleeps_ge (f : Nat → Except E B) (maxRetries : Nat) (expBase : ℚ)
    (jitter : Bool) (rands : Nat → ℚ) (hbase : 1 ≤ expBase)
    (hrand : ∀ i, 0 ≤ rands i) :
    ∀ fuel i delay, 0 ≤ delay →
      ∀ n, n < (backoffGo f maxRetries expBase jitter rands i delay fuel).2.2.length →
        delay * expBase ^ (n + 1)
          ≤ (backoffGo f maxRetries expBase jitter rands i delay fuel).2.2.getD n 0 := by
  have hbase0 : (0 : ℚ) ≤ expBase := le_trans (by norm_num) hbase
  intro fuel
  induction fuel with
  | zero =>
    intro i delay _ n hn
    rcases hfi : f i with v | e <;> simp [backoffGo, hfi] at hn
  | succ fuel ih =>
    intro i delay hdelay n hn
    rcases hfi : f i with e | v
    · have hjfac : 0 ≤ (if jitter then (1 : ℚ) else 0) * rands i := by
        rcases jitter <;> simp [hrand i]
      have hd1 : delay * expBase ≤ nextDelay expBase jitter (rands i) delay := by
        unfold nextDelay
        nlinarith [mul_nonneg (mul_nonneg hdelay hbase0) hjfac]
      have hd0 : 0 ≤ nextDelay expBase jitter (rands i) delay := by
        unfold nextDelay
        nlinarith [mul_nonneg (mul_nonneg hdelay hbase0) hjfac]
      have heq : (backoffGo f maxRetries expBase jitter rands i delay (fuel + 1)).2.2
          = nextDelay expBase jitter (rands i) delay
              :: (backoffGo f maxRetries expBase jitter rands (i + 1)
                  (nextDelay expBase jitter (rands i) delay) fuel).2.2 := by
        simp only [backoffGo, hfi]
      rw [heq] at hn ⊢
      cases n with
      | zero =>
        simp only [List.getD_cons_zero, Nat.zero_add, pow_one]
        exact hd1
      | succ n =>
        simp only [List.getD_cons_succ]
        simp only [List.length_cons] at hn
        have hrec := ih (i + 1) (nextDelay expBase jitter (rands i) delay) hd0 n
          (by omega)
        calc delay * expBase ^ (n + 1 + 1)
            = (delay * expBase) * expBase ^ (n + 1) := by ring
          _ ≤ nextDelay expBase jitter (rands i) delay * expBase ^ (n + 1) :=
              mul_le_mul_of_nonneg_right hd1 (pow_nonneg hbase0 _)
          _ ≤ _ := hrec
    · simp [backoffGo, hfi] at hn

/-- C3: for `max_retries = r` and a wrapped function raising on every call,
`retry_with_exponential_backoff` invokes the underlying function exactly
`r + 1` times and then raises the terminal
`Exception(f"Maximum number of retries ({r}) exceeded.", e)` carrying the
last underlying exception `e`; if instead some invocation among the first
`r + 1` (the first succeeding one being call `k ≤ r`) succeeds, its result
is returned unchanged after exactly `k + 1` invocations. -/
theorem C3_backoff_terminal (E B : Type) (f : Nat → Except E B) (r : Nat)
    (init base : ℚ) (jit : Bool) (rands : Nat → ℚ) :
    (∀ errs : Nat → E, (∀ i, f i = Except.error (errs i)) →
      (retry_with_exponential_backoff f init base jit r rands).1
          = BackoffOutcome.exhausted (maxRetriesMessage r) (errs r)
      ∧ (retry_with_exponential_backoff f init base jit r rands).2.1 = r + 1)
    ∧ (∀ k v, k ≤ r → (∀ j, j < k → ∃ e, f j = Except.error e) →
        f k = Except.ok v →
      (retry_with_exponential_backoff f init base jit r rands).1 = BackoffOutcome.ok v
      ∧ (retry_with_exponential_backoff f init base jit r rands).2.1 = k + 1) := by
  constructor
  · intro errs hf
    have h := backoffGo_all_fail f r base jit rands errs hf r 0 init
    unfold retry_with_exponential_backoff
    rw [h.1, h.2]
    simp
  · intro k v hk hfail hok
    exact backoffGo_first_ok f r base jit rands k v hok hfail r 0 init
      (by omega) (by omega)

theorem C3_backoff_terminal_witness :
    (retry_with_exponential_backoff
        (fun _ => (Except.error "boom" : Except String Nat)) 1 2 true 2
        (fun _ => 0)).1
      = BackoffOutcome.exhausted (maxRetriesMessage 2) "boom"
    ∧ (retry_with_exponential_backoff
        (fun _ => (Except.error "boom" : Except String Nat)) 1 2 true 2
        (fun _ => 0)).2.1 = 3 :=
  (C3_backoff_terminal String Nat (fun _ => Except.error "boom") 2 1 2 true
    (fun _ => 0)).1 (fun _ => "boom") (fun _ => rfl)

/-- C9: after each failed attempt `retry_with_exponential_backoff` updates
the delay as `delay = delay * exponential_base * (1 + jitter_flag *
random_in_unit)` (utils.py line 255); consequently, for
`exponential_base ≥ 1`, a nonnegative initial delay and every sequence of
jitter draws in `[0, 1)`, the delay slept after the `n`-th failure
(1-indexed: entry `n - 1` of the recorded sleep list) is at least
`initial_delay * exponential_base ^ n`. -/
theorem C9_backoff_delay_growth (E B : Type) (f : Nat → Except E B)
    (init base : ℚ) (jit : Bool) (rands : Nat → ℚ) (r : Nat)
    (hbase : 1 ≤ base) (hinit : 0 ≤ init)
    (hrand : ∀ i, 0 ≤ rands i ∧ rands i < 1) :
    (∀ d rnd, nextDelay base jit rnd d
        = d * base * (1 + (if jit then (1 : ℚ) else 0) * rnd))
    ∧ (∀ n, n < ((retry_with_exponential_backoff f init base jit r rands).2.2).length →
        init * base ^ (n + 1)
          ≤ ((retry_with_exponential_backoff f init base jit r rands).2.2).getD n 0) := by
  constructor
  · intro d rnd
    unfold nextDelay
    ring
  · intro n hn
    exact backoffGo_sleeps_ge f r base jit rands hbase (fun i => (hrand i).1)
      r 0 init hinit n hn

theorem C9_backoff_delay_growth_witness :
    1 * 2 ^ (0 + 1)
      ≤ ((retry_with_exponential_backoff
          (fun _ => (Except.error "boom" : Except String Nat)) 1 2 true 2
          (fun _ => 0)).2.2).getD 0 0 :=
  (C9_backoff_delay_growth String Nat (fun _ => Except.error "boom") 1 2 true
    (fun _ => 0) 2 (by norm_num) (by norm_num)
    (fun i => by norm_num)).2 0 (by decide)

/-- A Python value as far as the `weak_lru` cache is concerned: either
plain (reference-free) data or a strong reference to a heap object with
the given identity. -/
inductive PyVal where
  | nat : Nat → PyVal
  | ref : Nat → PyVal
deriving DecidableEq, Repr

/-- The object identities a value holds a strong (owning) reference to. -/
def PyVal.strongOids : PyVal → List Nat
  | PyVal.nat _ => []
  | PyVal.ref o => [o]

/-- One entry of the `functools.lru_cache` inside `weak_lru` (utils.py
lines 199-208).  The cache key is the tuple `(weakref.ref(self), *args)`:
`keyOid` is the identity of the receiver the weak reference points to (a
`weakref.ref` holds its referent non-owningly), `keyArgs` the argument
tuple (stored strongly), and `result` the cached return value (stored
strongly). -/
structure CEntry where
  keyOid : Nat
  keyArgs : PyVal
  result : PyVal
deriving DecidableEq, Repr

/-- Key equality used by the `lru_cache` dictionary on a lookup with
receiver identity `oid` and arguments `args`, against a stored entry `e`.
Per the documented CPython semantics of `weakref.ref`, two weak
references whose referents are both alive compare equal exactly when the
referents compare equal (and hash like their referents), so with every
receiver alive the receiver slot compares by the referents' value
equality under the heap `heap : oid -> value`; the argument tuples
compare structurally. -/
def entryMatches (heap : Nat → Nat) (oid : Nat) (args : PyVal) (e : CEntry) : Bool :=
  decide (heap e.keyOid = heap oid) && decide (e.keyArgs = args)

/-- One call through the method decorated by `weak_lru` (utils.py lines
199-208): `inner` builds the key `(weakref.ref(self), *args)` and calls
the `lru_cache`-decorated `_func`.  On a hit the cached result is
returned and the entry becomes most recently used; on a miss the
underlying `func` is invoked, the entry is inserted most recently used
and the least recently used entry is evicted if `maxsize` is exceeded.
Returns the result, the new cache state (most recently used first), and
whether the underlying function was invoked. -/
def lruCall (heap : Nat → Nat) (f : Nat → PyVal → PyVal) (maxsize : Nat)
    (st : List CEntry) (oid : Nat) (args : PyVal) : PyVal × List CEntry × Bool :=
  match st.find? (entryMatches heap oid args) with
  | some e => (e.result, e :: st.eraseP (entryMatches heap oid args), false)
  | none =>
    (f oid args,
     ({ keyOid := oid, keyArgs := args, result := f oid args } :: st).take maxsize,
     true)

/-- A sequence of calls through the decorated method: each trace element is
the receiver identity and the argument value.  Returns the final cache
state and the number of invocations of the underlying function. -/
def runCalls (heap : Nat → Nat) (f : Nat → PyVal → PyVal) (maxsize : Nat) :
    List (Nat × PyVal) → List CEntry → List CEntry × Nat
  | [], st => (st, 0)
  | c :: rest, st =>
    ((runCalls heap f maxsize rest (lruCall heap f maxsize st c.1 c.2).2.1).1,
     (if (lruCall heap f maxsize st c.1 c.2).2.2 then 1 else 0)
       + (runCalls heap f maxsize rest (lruCall heap f maxsize st c.1 c.2).2.1).2)

/-- All object identities the cache state holds strong references to: the
argument tuples and results of its entries.  The receiver slot of each
key is a `weakref.ref` and therefore contributes nothing: a weak
reference does not own its referent (it stores only the referent pointer
weakly plus the referent hash, which is plain data). -/
def cacheStrong (st : List CEntry) : List Nat :=
  (st.map (fun e => e.keyArgs.strongOids ++ e.result.strongOids)).flatten

theorem cacheStrong_mem (st : List CEntry) (a : Nat) :
    a ∈ cacheStrong st
      ↔ ∃ e ∈ st, a ∈ e.keyArgs.strongOids ++ e.result.strongOids := by
  unfold cacheStrong
  rw [List.mem_flatten]
  constructor
  · rintro ⟨l, hl, hal⟩
    obtain ⟨e, he, rfl⟩ := List.mem_map.mp hl
    exact ⟨e, he, hal⟩
  · rintro ⟨e, he, hal⟩
    exact ⟨_, List.mem_map.mpr ⟨e, he, rfl⟩, hal⟩

theorem lruCall_strong_preserve (heap : Nat → Nat) (f : Nat → PyVal → PyVal)
    (maxsize : Nat) (st : List CEntry) (oid o : Nat) (a : PyVal)
    (hst : oid ∉ cacheStrong st) (harg : oid ∉ PyVal.strongOids a)
    (hres : oid ∉ PyVal.strongOids (f o a)) :
    oid ∉ cacheStrong (lruCall heap f maxsize st o a).2.1 := by
  unfold lruCall
  rcases hfind : st.find? (entryMatches heap o a) with _ | e
  · simp only [hfind]
    intro hmem
    rw [cacheStrong_mem] at hmem
    obtain ⟨e, he, hoid⟩ := hmem
    have he2 := List.take_subset _ _ he
    rcases List.mem_cons.mp he2 with heq | hin
    · subst heq
      rcases List.mem_append.mp hoid with h | h
      · exact harg h
      · exact hres h
    · exact hst ((cacheStrong_mem st oid).mpr ⟨e, hin, hoid⟩)
  · simp only [hfind]
    intro hmem
    rw [cacheStrong_mem] at hmem
    obtain ⟨e2, he2, hoid⟩ := hmem
    rcases List.mem_cons.mp he2 with heq | hin
    · subst heq
      exact hst ((cacheStrong_mem st oid).mpr
        ⟨e2, List.mem_of_find?_eq_some hfind, hoid⟩)
    · exact hst ((cacheStrong_mem st oid).mpr
        ⟨e2, List.Sublist.mem hin (List.eraseP_sublist st), hoid⟩)

theorem runCalls_strong_invariant (heap : Nat → Nat) (f : Nat → PyVal → PyVal)
    (maxsize : Nat) (oid : Nat) :
    ∀ (trace : List (Nat × PyVal)) (st : List CEntry),
      oid ∉ cacheStrong st →
      (∀ c ∈ trace, oid ∉ PyVal.strongOids c.2) →
      (∀ o a, oid ∉ PyVal.strongOids (f o a)) →
      oid ∉ cacheStrong (runCalls heap f maxsize trace st).1 := by
  intro trace
  induction trace with
  | nil =>
    intro st hst _ _
    simpa [runCalls] using hst
  | cons c rest ih =>
    intro st hst hargs hres
    simp only [runCalls]
    apply ih
    · exact lruCall_strong_preserve heap f maxsize st oid c.1 c.2 hst
        (hargs c (List.mem_cons_self c rest)) (hres c.1 c.2)
    · exact fun d hd => hargs d (List.mem_cons_of_mem c hd)
    · exact hres

/-- C6 counterexample: two distinct live receiver objects (identities 1
and 2) that compare equal by value (both map to heap value 5) and are
called with structurally equal arguments share one cache entry: the
underlying function is invoked once in total, not once per receiver as
the claim requires, because `weakref.ref` equality (and hash) delegates
to the referents while both are alive, so `lru_cache` unifies the keys. -/
theorem C6_weak_lru_counterexample :
    (runCalls (fun _ => 5) (fun _ _ => PyVal.nat 0) 128
        [(1, PyVal.nat 0), (2, PyVal.nat 0)] []).2 = 1
    ∧ ¬ (runCalls (fun _ => 5) (fun _ _ => PyVal.nat 0) 128
        [(1, PyVal.nat 0), (2, PyVal.nat 0)] []).2 = 2 := by
  refine ⟨by decide, by decide⟩

/-- C6 (amended): two cached calls hit the same entry if and only if
their argument tuples are structurally equal and their (live) receivers
compare equal under the receivers' own equality - the referents' value
equality, not object identity: `weakref.ref` objects whose referents are
alive compare and hash like the referents, so `lru_cache` keys two
equal-by-value receivers identically and the underlying function runs
once in total for them.  Concretely: after one call with receiver `o1`
and arguments `a1` on an empty cache, a second call with receiver `o2`
and arguments `a2` is a cache hit (the underlying function is not
invoked) iff `heap o2 = heap o1` and `a2 = a1`. -/
theorem C6_weak_lru_key_equality (heap : Nat → Nat) (f : Nat → PyVal → PyVal)
    (maxsize : Nat) (hm : 1 ≤ maxsize) (o1 o2 : Nat) (a1 a2 : PyVal) :
    ((lruCall heap f maxsize (runCalls heap f maxsize [(o1, a1)] []).1 o2 a2).2.2
        = false)
      ↔ (heap o2 = heap o1 ∧ a2 = a1) := by
  have hst : (runCalls heap f maxsize [(o1, a1)] []).1
      = [{ keyOid := o1, keyArgs := a1, result := f o1 a1 }] := by
    obtain ⟨m, hmeq⟩ : ∃ m, maxsize = m + 1 := ⟨maxsize - 1, by omega⟩
    subst hmeq
    simp [runCalls, lruCall]
  rw [hst]
  unfold lruCall
  by_cases hmatch : entryMatches heap o2 a2
      { keyOid := o1, keyArgs := a1, result := f o1 a1 } = true
  · rw [List.find?_cons_of_pos _ hmatch]
    simp only [entryMatches, Bool.and_eq_true, decide_eq_true_eq] at hmatch
    exact iff_of_true rfl ⟨hmatch.1.symm, hmatch.2.symm⟩
  · rw [List.find?_cons_of_neg _ hmatch]
    simp only [List.find?_nil]
    apply iff_of_false
    · simp
    · rintro ⟨h1, h2⟩
      apply hmatch
      simp [entryMatches, h1, h2]

theorem C6_weak_lru_key_equality_witness :
    (lruCall (fun _ => 5) (fun _ _ => PyVal.nat 0) 128
        (runCalls (fun _ => 5) (fun _ _ => PyVal.nat 0) 128 [(1, PyVal.nat 0)] []).1
        2 (PyVal.nat 0)).2.2 = false :=
  (C6_weak_lru_key_equality (fun _ => 5) (fun _ _ => PyVal.nat 0) 128 (by decide)
    1 2 (PyVal.nat 0) (PyVal.nat 0)).mpr ⟨rfl, rfl⟩

/-- C10 counterexample: the claim quantifies over every decorated method
and every call sequence, but a method whose result strongly references
the receiver (for example one returning `self`) defeats it: `lru_cache`
stores results strongly, so after one call the cache state holds a strong
reference to receiver identity 1, and the existence of that entry does
keep the receiver alive. -/
theorem C10_weak_lru_counterexample :
    1 ∈ cacheStrong ((runCalls (fun _ => 0) (fun o _ => PyVal.ref o) 128
        [(1, PyVal.nat 0)] []).1) := by
  decide

/-- C10 (amended): the receiver slot of each cache key is a `weakref.ref`
and is non-owning; provided the cached argument tuples and results do not
themselves strongly reference the receiver, the cache state after any
sequence of calls holds no strong reference to the receiver, so its cache
entries never prevent the receiver from being reclaimed once it is
unreachable elsewhere. -/
theorem C10_weak_lru_nonowning (heap : Nat → Nat) (f : Nat → PyVal → PyVal)
    (maxsize : Nat) (trace : List (Nat × PyVal)) (oid : Nat)
    (hargs : ∀ c ∈ trace, oid ∉ PyVal.strongOids c.2)
    (hres : ∀ o a, oid ∉ PyVal.strongOids (f o a)) :
    oid ∉ cacheStrong (runCalls heap f maxsize trace []).1 :=
  runCalls_strong_invariant heap f maxsize oid trace []
    (by simp [cacheStrong]) hargs hres

theorem C10_weak_lru_nonowning_witness :
    1 ∉ cacheStrong ((runCalls (fun _ => 0) (fun _ _ => PyVal.nat 7) 128
        [(1, PyVal.nat 0)] []).1) :=
  C10_weak_lru_nonowning (fun _ => 0) (fun _ _ => PyVal.nat 7) 128
    [(1, PyVal.nat 0)] 1 (by decide) (fun _ _ => List.not_mem_nil 1)

/-- The exact warning printed by `FunctionWrapper.__call__` (utils.py
lines 114-116) when a rate limit is configured but the Python minor
version is 3.11 or later, where the `ratelimiter` mechanism is
unsupported. -/
def rateLimitWarning : String :=
  "WARNING: rate limit only support up to 3.10, proceeding without rate limiter"

/-- Embedding of `FunctionWrapper.__call__` (utils.py lines 98-127) with
the rate-limit branch (lines 111-124) modelled and no retry configured.
`rlConfigured` is whether `rate_limiter_kwargs` is nonempty and `pyMinor`
is `sys.version_info.minor`.  On `pyMinor ≥ 11` the code prints the
warning and leaves `embed_func` unwrapped; otherwise it wraps
`embed_func` in `ratelimiter.RateLimiter`, which throttles call timing
but passes arguments and results through unchanged (time is not
modelled), after which lines 125-126 run the batches exactly as in
`FunctionWrapper.call`.  Returns the list of warnings printed and the
flattened results.  No branch of the Python code raises. -/
def FunctionWrapper.callWithRateLimit (f : List α → List β) (b : Nat)
    (rlConfigured : Bool) (pyMinor : Nat) (text : List α) : List String × List β :=
  if rlConfigured then
    if 11 ≤ pyMinor then ([rateLimitWarning], FunctionWrapper.call f b text)
    else ([], FunctionWrapper.call f b text)
  else ([], FunctionWrapper.call f b text)

/-- C7: when rate limiting is configured but unavailable in the current
runtime (Python minor version `≥ 11`), invoking the pipeline emits the
warning, skips rate limiting and still executes every batch call,
returning exactly the results of the unthrottled pipeline
(`FunctionWrapper.call`, which applies the embedding function to every
batch); no error is raised because of the unavailability (the embedding
returns a total value, there being no raising operation in that branch). -/
theorem C7_rate_limit_fallback (f : List α → List β) (b : Nat)
    (pyMinor : Nat) (text : List α) (hv : 11 ≤ pyMinor) :
    FunctionWrapper.callWithRateLimit f b true pyMinor text
        = ([rateLimitWarning], FunctionWrapper.call f b text)
    ∧ (FunctionWrapper.callWithRateLimit f b true pyMinor text).2
        = (FunctionWrapper.callWithRateLimit f b false pyMinor text).2
    ∧ (FunctionWrapper.callWithRateLimit f b true pyMinor text).2
        = ((FunctionWrapper.to_batches b text).map f).flatten := by
  unfold FunctionWrapper.callWithRateLimit
  simp [hv]
  rfl

theorem C7_rate_limit_fallback_witness :
    FunctionWrapper.callWithRateLimit (fun l => l) 1 true 11 ([3] : List Nat)
      = ([rateLimitWarning], FunctionWrapper.call (fun l => l) 1 [3]) :=
  (C7_rate_limit_fallback (fun l => l) 1 11 [3] (by decide)).1

/-- A pyarrow table: named columns in order, each a list of cell values.
`numRows` follows pyarrow: the length of the columns (0 for a table with
no columns). -/
structure PaTable (C : Type) where
  cols : List (String × List C)

def PaTable.numRows (t : PaTable C) : Nat :=
  match t.cols with
  | [] => 0
  | c :: _ => c.2.length

/-- Column lookup `data[column]`: the first column with the given name,
or the `KeyError` case as `none`. -/
def PaTable.column? (t : PaTable C) (name : String) : Option (List C) :=
  (t.cols.find? (fun c => c.1 == name)).map (fun c => c.2)

/-- Embedding of `pa.Table.append_column` as used on utils.py line 83: it
returns a new table with the column appended after all existing columns,
and raises if the added column's length differs from the table's row
count (pyarrow refuses length-mismatched columns rather than truncating
or padding). -/
def PaTable.append_column (t : PaTable C) (name : String) (col : List C) :
    Except String (PaTable C) :=
  if col.length = t.numRows then Except.ok { cols := t.cols ++ [(name, col)] }
  else Except.error "Added column length must match table length"

/-- Embedding of `with_embeddings` (utils.py lines 41-83): extract the
named column as a flat array (a `KeyError` if absent), run the configured
pipeline over it (the retry and rate-limit wrappers pass results through
unchanged for an embedding function embedded as a total Lean function, so
the pipeline is `FunctionWrapper.call` with the configured batch size),
convert the embeddings to a vector column (`vec_to_table`, an external
conversion that preserves count and order) and append it as the column
literally named "vector". -/
def with_embeddings (f : List C → List C) (b : Nat) (t : PaTable C)
    (column : String) : Except String (PaTable C) :=
  match PaTable.column? t column with
  | none => Except.error ("KeyError: " ++ column)
  | some arr => PaTable.append_column t "vector" (FunctionWrapper.call f b arr)

/-- C8: for every input table and existing column name, `with_embeddings`
returns a new table equal to the input with exactly one appended column
named "vector" (every pre-existing column present, unchanged and in
order, the new column last); and when the number of embeddings produced
differs from the table's row count, the operation surfaces an error
instead of silently truncating or padding. -/
theorem C8_with_embeddings_append (C : Type) (f : List C → List C) (b : Nat)
    (t : PaTable C) (column : String) (arr : List C)
    (hcol : PaTable.column? t column = some arr) :
    ((FunctionWrapper.call f b arr).length = t.numRows →
      with_embeddings f b t column
        = Except.ok { cols := t.cols ++ [("vector", FunctionWrapper.call f b arr)] })
    ∧ ((FunctionWrapper.call f b arr).length ≠ t.numRows →
      with_embeddings f b t column
        = Except.error "Added column length must match table length") := by
  unfold with_embeddings
  rw [hcol]
  unfold PaTable.append_column
  constructor
  · intro h
    simp [h]
  · intro h
    simp [h]

theorem C8_with_embeddings_append_witness :
    with_embeddings (fun l => l) 1 { cols := [("text", [10, 20])] } "text"
      = Except.ok { cols := [("text", ([10, 20] : List Nat)), ("vector", [10, 20])] } := by
  have h := (C8_with_embeddings_append Nat (fun l => l) 1
    { cols := [("text", [10, 20])] } "text" [10, 20] rfl).1 (by rfl)
  simpa using h
